import Mathlib

/-!
Verification of the natural-language specification of a Rust library
implementing the GM/T SM2 / SM3 / SM4 cryptographic algorithms, against a
shallow embedding of the library's source code.

Conventions of the embedding:
* Rust machine integers (u8, u32, u64) become Nat with explicit masking
  (% 256, % 2^32, % 2^64) exactly where the Rust code wraps.
* Byte vectors (Vec of u8, slices) become List Nat whose entries are bytes.
* Rust code that can panic becomes an Option- or sum-valued function whose
  none / aborted case marks the panic.
* BigUint becomes Nat, BigInt becomes Int;
  num_bigint's mod_floor with a positive modulus is Nat.mod, and on Int it
  is Int.emod, which agrees with floor-mod for a positive modulus.
* Functions keep the source names where Lean allows it.
-/

namespace SM

/- ===================== u32 helpers ===================== -/

/-- 2^32, the modulus of Rust u32 arithmetic. -/
def U32M : Nat := 4294967296

/-- Rust u32 wrapping addition. -/
def wadd (a b : Nat) : Nat := (a + b) % U32M

/-- Rust u32 rotate_left: rotation amount is taken mod 32 (Rust semantics
for rotate_left with an argument of 32 or more). -/
def rotl32 (x n : Nat) : Nat :=
  ((x <<< (n % 32)) ||| (x >>> (32 - n % 32))) % U32M

/-- Rust u32 bitwise NOT for x < 2^32: !x = 0xFFFFFFFF XOR x. -/
def wnot (x : Nat) : Nat := 4294967295 ^^^ x

/- ===================== SM3 (H256), from src/sm3/core.rs ===================== -/

/-- Initial register values (src/sm3/core.rs, IV). -/
def sm3IV : Nat × Nat × Nat × Nat × Nat × Nat × Nat × Nat :=
  (0x7380166f, 0x4914b2b9, 0x172442d7, 0xda8a0600,
   0xa96f30bc, 0x163138aa, 0xe38dee4d, 0xb0fb0e4e)

/-- Round constant for rounds 0..15 (src/sm3/core.rs, T0). -/
def sm3T0 : Nat := 0x79cc4519

/-- Round constant for rounds 16..63 (src/sm3/core.rs, T1). -/
def sm3T1 : Nat := 0x7a879d8a

/-- Boolean function FF for rounds 0..15 (src/sm3/core.rs, ff0). -/
def ff0 (x y z : Nat) : Nat := x ^^^ y ^^^ z

/-- Boolean function FF for rounds 16..63 (src/sm3/core.rs, ff1). -/
def ff1 (x y z : Nat) : Nat := (x &&& y) ||| (x &&& z) ||| (y &&& z)

/-- Boolean function GG for rounds 0..15 (src/sm3/core.rs, gg0). -/
def gg0 (x y z : Nat) : Nat := x ^^^ y ^^^ z

/-- Boolean function GG for rounds 16..63 (src/sm3/core.rs, gg1). -/
def gg1 (x y z : Nat) : Nat := (x &&& y) ||| (wnot x &&& z)

/-- Permutation P0 of the compression function (src/sm3/core.rs, p0). -/
def p0 (x : Nat) : Nat := x ^^^ rotl32 x 9 ^^^ rotl32 x 17

/-- Permutation P1 of the message expansion (src/sm3/core.rs, p1). -/
def p1 (x : Nat) : Nat := x ^^^ rotl32 x 15 ^^^ rotl32 x 23

/-- Merkle-Damgard padding (src/sm3/core.rs, Crypto::pad): append 0x80,
then zero bytes until the length is 56 mod 64, then the original bit
length as a 64-bit big-endian integer.  The number of zero bytes appended
by the source's while loop is (56 + 64 - (len + 1) % 64) % 64. -/
def sm3Pad (data : List Nat) : List Nat :=
  let l := (data.length * 8) % 18446744073709551616
  data ++ [0x80]
    ++ List.replicate ((56 + 64 - (data.length + 1) % 64) % 64) 0
    ++ [(l >>> 56) % 256, (l >>> 48) % 256, (l >>> 40) % 256, (l >>> 32) % 256,
        (l >>> 24) % 256, (l >>> 16) % 256, (l >>> 8) % 256, l % 256]

/-- Split a byte list into 64-byte blocks (src/sm3/core.rs, Crypto::block).
The source loops while c * 64 differs from the total length; on padded
input the length is always a multiple of 64. -/
def chunks64 (l : List Nat) : List (List Nat) :=
  if l = [] then [] else l.take 64 :: chunks64 (l.drop 64)
termination_by l.length
decreasing_by
  simp only [List.length_drop]
  cases l with
  | nil => simp_all
  | cons a t => simp; omega

/-- Message expansion W0..W67 (src/sm3/core.rs, Crypto::iterate, first two
loops): the first 16 words are the big-endian words of the block, the rest
follow the recurrence Wj = P1(W(j-16) xor W(j-9) xor rotl15 W(j-3))
xor rotl7 W(j-13) xor W(j-6). -/
def sm3W1 (b : List Nat) : List Nat :=
  let w0 := (List.range 16).map (fun i =>
    ((b.getD (i * 4) 0) <<< 24) ||| ((b.getD (i * 4 + 1) 0) <<< 16) |||
    ((b.getD (i * 4 + 2) 0) <<< 8) ||| (b.getD (i * 4 + 3) 0))
  (List.range' 16 52).foldl
    (fun w i =>
      w ++ [p1 ((w.getD (i - 16) 0) ^^^ (w.getD (i - 9) 0) ^^^
                 rotl32 (w.getD (i - 3) 0) 15)
            ^^^ rotl32 (w.getD (i - 13) 0) 7 ^^^ (w.getD (i - 6) 0)])
    w0

/-- Derived words W'0..W'63 (src/sm3/core.rs, Crypto::iterate):
W'j = Wj xor W(j+4). -/
def sm3W2 (w1 : List Nat) : List Nat :=
  (List.range 64).map (fun i => (w1.getD i 0) ^^^ (w1.getD (i + 4) 0))

/-- One round of the compression function for rounds 0..15
(src/sm3/core.rs, Crypto::iterate, first round loop). -/
def sm3Round0 (w1 w2 : List Nat)
    (r : Nat × Nat × Nat × Nat × Nat × Nat × Nat × Nat) (i : Nat) :
    Nat × Nat × Nat × Nat × Nat × Nat × Nat × Nat :=
  let (ra, rb, rc, rd, re, rf, rg, rh) := r
  let ss1 := rotl32 (wadd (wadd (rotl32 ra 12) re) (rotl32 sm3T0 i)) 7
  let ss2 := ss1 ^^^ rotl32 ra 12
  let tt1 := wadd (wadd (wadd (ff0 ra rb rc) rd) ss2) (w2.getD i 0)
  let tt2 := wadd (wadd (wadd (gg0 re rf rg) rh) ss1) (w1.getD i 0)
  (tt1, ra, rotl32 rb 9, rc, p0 tt2, re, rotl32 rf 19, rg)

/-- One round of the compression function for rounds 16..63
(src/sm3/core.rs, Crypto::iterate, second round loop). -/
def sm3Round1 (w1 w2 : List Nat)
    (r : Nat × Nat × Nat × Nat × Nat × Nat × Nat × Nat) (i : Nat) :
    Nat × Nat × Nat × Nat × Nat × Nat × Nat × Nat :=
  let (ra, rb, rc, rd, re, rf, rg, rh) := r
  let ss1 := rotl32 (wadd (wadd (rotl32 ra 12) re) (rotl32 sm3T1 i)) 7
  let ss2 := ss1 ^^^ rotl32 ra 12
  let tt1 := wadd (wadd (wadd (ff1 ra rb rc) rd) ss2) (w2.getD i 0)
  let tt2 := wadd (wadd (wadd (gg1 re rf rg) rh) ss1) (w1.getD i 0)
  (tt1, ra, rotl32 rb 9, rc, p0 tt2, re, rotl32 rf 19, rg)

/-- Compression of one 64-byte block into the register state
(src/sm3/core.rs, Crypto::iterate, body of the for_each):
expansion, 16 rounds with FF0/GG0/T0, 48 rounds with FF1/GG1/T1, and the
final XOR of the new registers into the old ones. -/
def sm3Compress (r : Nat × Nat × Nat × Nat × Nat × Nat × Nat × Nat)
    (b : List Nat) : Nat × Nat × Nat × Nat × Nat × Nat × Nat × Nat :=
  let w1 := sm3W1 b
  let w2 := sm3W2 w1
  let s0 := (List.range 16).foldl (sm3Round0 w1 w2) r
  let s1 := (List.range' 16 48).foldl (sm3Round1 w1 w2) s0
  let (ra, rb, rc, rd, re, rf, rg, rh) := r
  let (sa, sb, sc, sd, se, sf, sg, sh) := s1
  (ra ^^^ sa, rb ^^^ sb, rc ^^^ sc, rd ^^^ sd,
   re ^^^ se, rf ^^^ sf, rg ^^^ sg, rh ^^^ sh)

/-- The SM3 hash of a byte list, 32 bytes of output
(src/sm3/core.rs, Crypto::hash = pad, block, iterate, output;
src/sm3.rs, hash). -/
def sm3hash (data : List Nat) : List Nat :=
  let bs := chunks64 (sm3Pad data)
  let (a, b, c, d, e, f, g, h) := bs.foldl sm3Compress sm3IV
  [(a >>> 24) % 256, (a >>> 16) % 256, (a >>> 8) % 256, a % 256,
   (b >>> 24) % 256, (b >>> 16) % 256, (b >>> 8) % 256, b % 256,
   (c >>> 24) % 256, (c >>> 16) % 256, (c >>> 8) % 256, c % 256,
   (d >>> 24) % 256, (d >>> 16) % 256, (d >>> 8) % 256, d % 256,
   (e >>> 24) % 256, (e >>> 16) % 256, (e >>> 8) % 256, e % 256,
   (f >>> 24) % 256, (f >>> 16) % 256, (f >>> 8) % 256, f % 256,
   (g >>> 24) % 256, (g >>> 16) % 256, (g >>> 8) % 256, g % 256,
   (h >>> 24) % 256, (h >>> 16) % 256, (h >>> 8) % 256, h % 256]

/- ===================== Curve constants (src/sm2/p256.rs, EC_*) ===================== -/

/-- The field prime p (src/sm2/p256.rs, EC_P, big-endian bytes). -/
def ecP : Nat := 0xFFFFFFFEFFFFFFFFFFFFFFFFFFFFFFFFFFFFFFFF00000000FFFFFFFFFFFFFFFF

/-- The curve coefficient a (src/sm2/p256.rs, EC_A). -/
def ecA : Nat := 0xFFFFFFFEFFFFFFFFFFFFFFFFFFFFFFFFFFFFFFFF00000000FFFFFFFFFFFFFFFC

/-- The curve coefficient b (src/sm2/p256.rs, EC_B). -/
def ecB : Nat := 0x28E9FA9E9D9F5E344D5A9E4BCF6509A7F39789F515AB8F92DDBCBD414D940E93

/-- The base point x coordinate gx (src/sm2/p256.rs, EC_GX). -/
def ecGx : Nat := 0x32C4AE2C1F1981195F9904466A39C9948FE30BBFF2660BE1715A4589334C74C7

/-- The base point y coordinate gy (src/sm2/p256.rs, EC_GY). -/
def ecGy : Nat := 0xBC3736A2F4F6779C59BDCEE36B692153D0A9877CC62A474002DF32E52139F0A0

/-- The subgroup order n (src/sm2/p256.rs, EC_N). -/
def ecN : Nat := 0xFFFFFFFEFFFFFFFFFFFFFFFFFFFFFFFF7203DF6B21C6052B53BBF40939D54123

/- ===================== Big-integer byte conversions ===================== -/

/-- num_bigint's BigUint::to_bytes_be: big-endian bytes with no leading
zero bytes; the number zero is the single byte 0. -/
def natToBytesBE (v : Nat) : List Nat :=
  if v < 256 then [v] else natToBytesBE (v / 256) ++ [v % 256]
termination_by v
decreasing_by exact Nat.div_lt_self (by omega) (by omega)

/-- num_bigint's BigUint::from_bytes_be: big-endian byte interpretation. -/
def bytesToNatBE (l : List Nat) : Nat := l.foldl (fun a b => a * 256 + b) 0

/-- Modelled from the spec: the helper to_32_bytes is imported by
src/sm2/ecc.rs from src/sm2/key.rs but its definition is not among the
source files.  The spec serializes public-key coordinates as 32 bytes
big-endian, left-zero-padded, so the helper left-pads a big-endian byte
string to 32 bytes. -/
def to32bytes (l : List Nat) : List Nat := List.replicate (32 - l.length) 0 ++ l

/- ===================== KDF (src/sm2/ecc.rs, kdf / to_bytes / is_all_zero) ===================== -/

/-- Big-endian bytes of the 4 low bytes of a usize counter
(src/sm2/ecc.rs, to_bytes). -/
def toBytes4 (x : Nat) : List Nat :=
  [(x >>> 24) % 256, (x >>> 16) % 256, (x >>> 8) % 256, x % 256]

/-- True when every byte is zero (src/sm2/ecc.rs, is_all_zero). -/
def isAllZero (data : List Nat) : Bool := data.all (fun b => b == 0)

/-- The loop of the key-derivation function (src/sm2/ecc.rs, kdf):
remaining iterations counted down; on the last iteration the hash block is
truncated to len % 32 bytes when len is not a multiple of 32. -/
def kdfGo (data : List Nat) (len counter : Nat) : Nat → List Nat
  | 0 => []
  | 1 =>
    let h := sm3hash (data ++ toBytes4 counter)
    if len % 32 != 0 then h.take (len % 32) else h
  | r + 2 =>
    sm3hash (data ++ toBytes4 counter) ++ kdfGo data len (counter + 1) (r + 1)

/-- The key derivation function (src/sm2/ecc.rs, kdf).  The block count is
written exactly as in the source: data.len() + 31 / 32, where the division
binds tighter than the addition, so it equals data.length. -/
def kdf (data : List Nat) (len : Nat) : List Nat :=
  kdfGo data len 1 (data.length + 31 / 32)

/- ===================== Z_A digest (src/sm2/ecc.rs, Crypto::digest) ===================== -/

/-- The default 16-byte user identifier (src/sm2/ecc.rs, UID):
ASCII "1234567812345678". -/
def uidBytes : List Nat :=
  [0x31, 0x32, 0x33, 0x34, 0x35, 0x36, 0x37, 0x38,
   0x31, 0x32, 0x33, 0x34, 0x35, 0x36, 0x37, 0x38]

/-- The two-byte big-endian bit length of the identifier
(src/sm2/ecc.rs, Crypto::digest, ent): UID has 16 bytes = 128 bits. -/
def entBytes : List Nat := [(128 >>> 8) % 256, 128 % 256]

/-- The byte string hashed by the user-identity digest
(src/sm2/ecc.rs, Crypto::digest): the source binds
(a, b) = (e.a.to_bytes_be(), e.a.to_bytes_be()), so the coefficient a is
concatenated twice and the coefficient b never enters the preimage. -/
def digestPreimage (px py : Nat) : List Nat :=
  entBytes ++ uidBytes
    ++ natToBytesBE ecA ++ natToBytesBE ecA
    ++ natToBytesBE ecGx ++ natToBytesBE ecGy
    ++ to32bytes (natToBytesBE px) ++ to32bytes (natToBytesBE py)

/-- The user-identity digest Z_A as the code computes it
(src/sm2/ecc.rs, Crypto::digest). -/
def digest (px py : Nat) : List Nat := sm3hash (digestPreimage px py)

/-- The Z_A preimage as the spec words it (spec 4.7 step 1):
entl, U, a, b, gx, gy, xQ, yQ in that order.  This definition follows the
spec, for comparison with digestPreimage, which follows the code. -/
def zaSpecPreimage (px py : Nat) : List Nat :=
  entBytes ++ uidBytes
    ++ natToBytesBE ecA ++ natToBytesBE ecB
    ++ natToBytesBE ecGx ++ natToBytesBE ecGy
    ++ to32bytes (natToBytesBE px) ++ to32bytes (natToBytesBE py)

/- ===================== Key encoding (src/sm2/key.rs) ===================== -/

/-- Lowercase hex encoding of a byte list (the hex::encode calls in the
source), two hex characters per byte. -/
def hexEncode (bs : List Nat) : List Char :=
  bs.flatMap (fun b => [Nat.digitChar (b / 16), Nat.digitChar (b % 16)])

/-- PrivateKey::encode (src/sm2/key.rs lines 114-120): hex of the
big-endian bytes of the key, panicking (none) unless the byte string has
exactly 32 bytes.  The source does not pad short keys. -/
def privateKeyEncode (d : Nat) : Option (List Char) :=
  let keyBytes := natToBytesBE d
  if keyBytes.length != 32 then none else some (hexEncode keyBytes)

/-- KeyGenerator::gen_private_key (src/sm2/key.rs lines 165-176):
from a random k, the key is k mod (n - 2), plus 1. -/
def genPrivateKey (k : Nat) : Nat := k % (ecN - 2) + 1

/- ===================== SM2 encryption (src/sm2/ecc.rs, Encryptor) ===================== -/

/-- Ciphertext component ordering (src/sm2/ecc.rs, Mode). -/
inductive SM2Mode where
  | C1C2C3
  | C1C3C2

/-- Outcome of one iteration of the encryption loop
(src/sm2/ecc.rs, Encryptor::execute): retry models the continue taken when
the KDF output is all zero, aborted models a panic (here: the C2 loop
indexing t out of bounds), ok carries the hex-encoded ciphertext. -/
inductive EncResult where
  | retry
  | aborted
  | ok (cipher : List Char)

/-- True exactly on the ok outcome. -/
def EncResult.isOk : EncResult → Bool
  | .ok _ => true
  | _ => false

/-- The C2 loop of Encryptor::execute (src/sm2/ecc.rs):
c2.push(data at i XOR t at i) for i below data.len();
indexing t out of bounds is a panic, modelled as none. -/
def xorLoop : List Nat → List Nat → Option (List Nat)
  | [], _ => some []
  | _ :: _, [] => none
  | d :: ds, x :: xs => (xorLoop ds xs).map (fun c => (d ^^^ x) :: c)

/-- One iteration of the encryption loop (src/sm2/ecc.rs,
Encryptor::execute), for the nonce k drawn in that iteration.
The builder is the pair of functions scalar_base_multiply (bmul) and
scalar_multiply (smul); (px, py) is the recipient public key.
C1 is 0x04 followed by the unpadded to_bytes_be of the coordinates of
k times the base point. -/
def encryptStep (bmul : Nat → Nat × Nat) (smul : Nat → Nat → Nat → Nat × Nat)
    (mode : SM2Mode) (px py : Nat) (data : List Nat) (k : Nat) : EncResult :=
  let kg := bmul k
  let c1 := [0x04] ++ natToBytesBE kg.1 ++ natToBytesBE kg.2
  let xy2 := smul px py k
  let temp := natToBytesBE xy2.1 ++ natToBytesBE xy2.2
  let t := kdf temp data.length
  if isAllZero t then .retry
  else
    match xorLoop data t with
    | none => .aborted
    | some c2 =>
      let c3 := sm3hash (natToBytesBE xy2.1 ++ data ++ natToBytesBE xy2.2)
      let cipher := match mode with
        | .C1C3C2 => c1 ++ c3 ++ c2
        | .C1C2C3 => c1 ++ c2 ++ c3
      .ok (hexEncode cipher)

/-- A 2080-byte plaintext (2080 copies of the ASCII byte for the letter a),
long enough that the kdf output cannot cover it. -/
def longMsg : List Nat := List.replicate 2080 97

/- ===================== SM2 signature (src/sm2/ecc.rs, Signer / Verifier) ===================== -/

/-- One iteration of the signing loop (src/sm2/ecc.rs, Signer::sign), for
the nonce k drawn in that iteration; none models the continue (retry) when
r = 0, r + k = n or s = 0.  The keypair is (d, bmul d); the Z_A hash is
Crypto::digest of the public key.  The Bezout coefficient
extended_gcd(d + 1, n).x is embedded as Nat.gcdA (d + 1) n; any two Bezout
coefficients for the same pair agree after mod_floor n when
gcd(d + 1, n) = 1, which the round-trip theorem assumes. -/
def signStep (bmul : Nat → Nat × Nat) (d : Nat) (msg : List Nat) (k : Nat) :
    Option (Nat × Nat) :=
  let pub := bmul d
  let za := digest pub.1 pub.2
  let e := bytesToNatBE (sm3hash (za ++ msg))
  let x1 := (bmul k).1
  let r := (e + x1) % ecN
  if r = 0 ∨ r + k = ecN then none
  else
    let a : Int := (k : Int) - (d : Int) * (r : Int)
    let bez : Int := (Nat.gcdA (d + 1) ecN) % (ecN : Int)
    let s := ((a * bez) % (ecN : Int)).toNat
    if s = 0 then none else some (r, s)

/-- Signature verification (src/sm2/ecc.rs, Verifier::verify) over the
builder functions scalar_base_multiply (bmul), scalar_multiply (smul) and
point_add (padd); (px, py) is the signer public key. -/
def verifySig (bmul : Nat → Nat × Nat) (smul : Nat → Nat → Nat → Nat × Nat)
    (padd : Nat → Nat → Nat → Nat → Nat × Nat)
    (px py : Nat) (msg : List Nat) (r s : Nat) : Bool :=
  let n1 := ecN - 1
  if r < 1 ∨ r > n1 then false
  else if s < 1 ∨ s > n1 then false
  else
    let e := bytesToNatBE (sm3hash (digest px py ++ msg))
    let t := (r + s) % ecN
    if t = 0 then false
    else
      let q1 := bmul s
      let q2 := smul px py t
      let q3 := padd q1.1 q1.2 q2.1 q2.2
      (e + q3.1) % ecN == r

/- ===================== Toy builder used to witness the protocol theorems ===================== -/

/-- A builder model whose points are pairs (v mod n, 0): base
multiplication by k yields (k mod n, 0).  It satisfies the multiplication
laws the protocol relies on and is used only to instantiate theorems about
the generic Encryptor / Signer / Verifier. -/
def toyBmul (k : Nat) : Nat × Nat := (k % ecN, 0)

/-- Scalar multiplication of the toy builder: (x, y) times t is
(x * t mod n, 0). -/
def toySmul (x _y t : Nat) : Nat × Nat := (x * t % ecN, 0)

/-- Point addition of the toy builder: componentwise addition mod n on the
first coordinate. -/
def toyPadd (x1 _y1 x2 _y2 : Nat) : Nat × Nat := ((x1 + x2) % ecN, 0)

/- ===================== SM4 (B128) block cipher, modelled ===================== -/

/-- Modelled from the spec: the block-cipher core src/sm4/core.rs
(Crypto::init, Crypto::encrypt, Crypto::decrypt) is not among the source
files; only the mode drivers that call it are.  Spec 4.10: a 32-round
Feistel network on a 128-bit state of four 32-bit words whose round
function applies a non-linear S-box and a linear diffusion layer; encrypt
and decrypt differ only by round-key order.  The combined S-box plus
diffusion step is the parameter T (truncated to 32 bits), and one round
maps (x0, x1, x2, x3) to (x1, x2, x3, x0 xor T(x1 xor x2 xor x3 xor rk)). -/
def sm4Round (T : Nat → Nat) (st : Nat × Nat × Nat × Nat) (rk : Nat) :
    Nat × Nat × Nat × Nat :=
  (st.2.1, st.2.2.1, st.2.2.2,
   st.1 ^^^ (T (st.2.1 ^^^ st.2.2.1 ^^^ st.2.2.2 ^^^ rk) % U32M))

/-- The 32 Feistel rounds, driven by the round-key list. -/
def sm4Rounds (T : Nat → Nat) (st : Nat × Nat × Nat × Nat) (ks : List Nat) :
    Nat × Nat × Nat × Nat :=
  ks.foldl (sm4Round T) st

/-- The final word reversal of the Feistel network. -/
def rev4 (st : Nat × Nat × Nat × Nat) : Nat × Nat × Nat × Nat :=
  (st.2.2.2, st.2.2.1, st.2.1, st.1)

/-- Pack 16 bytes into four big-endian 32-bit words. -/
def packBlock (b : List Nat) : Nat × Nat × Nat × Nat :=
  (b.getD 0 0 * 16777216 + b.getD 1 0 * 65536 + b.getD 2 0 * 256 + b.getD 3 0,
   b.getD 4 0 * 16777216 + b.getD 5 0 * 65536 + b.getD 6 0 * 256 + b.getD 7 0,
   b.getD 8 0 * 16777216 + b.getD 9 0 * 65536 + b.getD 10 0 * 256 + b.getD 11 0,
   b.getD 12 0 * 16777216 + b.getD 13 0 * 65536 + b.getD 14 0 * 256 + b.getD 15 0)

/-- Unpack four 32-bit words into 16 big-endian bytes. -/
def unpackBlock (st : Nat × Nat × Nat × Nat) : List Nat :=
  [st.1 / 16777216 % 256, st.1 / 65536 % 256, st.1 / 256 % 256, st.1 % 256,
   st.2.1 / 16777216 % 256, st.2.1 / 65536 % 256, st.2.1 / 256 % 256, st.2.1 % 256,
   st.2.2.1 / 16777216 % 256, st.2.2.1 / 65536 % 256, st.2.2.1 / 256 % 256, st.2.2.1 % 256,
   st.2.2.2 / 16777216 % 256, st.2.2.2 / 65536 % 256, st.2.2.2 / 256 % 256, st.2.2.2 % 256]

/-- Modelled from the spec: single-block encryption of the missing
src/sm4/core.rs, as a Feistel network over the round keys ks with combined
round function T, followed by the word reversal. -/
def sm4EncryptBlock (T : Nat → Nat) (ks : List Nat) (b : List Nat) : List Nat :=
  unpackBlock (rev4 (sm4Rounds T (packBlock b) ks))

/-- Modelled from the spec: single-block decryption differs from
encryption only by round-key order (spec 4.10). -/
def sm4DecryptBlock (T : Nat → Nat) (ks : List Nat) (b : List Nat) : List Nat :=
  unpackBlock (rev4 (sm4Rounds T (packBlock b) ks.reverse))

/- ===================== SM4 CBC mode (src/sm4/cbc.rs) ===================== -/

/-- Byte-wise XOR of two buffers (src/sm4.rs, xor); in the source both
buffers always have 16 bytes. -/
def xorBytes (a b : List Nat) : List Nat := List.zipWith (fun x y => x ^^^ y) a b

/-- The full-block loop of CBC encryption (src/sm4/cbc.rs,
encrypt_bytes): for each of the q full plaintext blocks, XOR with the
chaining buffer, encrypt, emit, and chain; returns the cipher blocks and
the final chaining buffer. -/
def cbcEncGo (enc : List Nat → List Nat) (buf rest : List Nat) :
    Nat → List (List Nat) × List Nat
  | 0 => ([], buf)
  | q + 1 =>
    let c := enc (xorBytes buf (rest.take 16))
    let r := cbcEncGo enc c (rest.drop 16) q
    (c :: r.1, r.2)

/-- CBC encryption (src/sm4/cbc.rs, CryptoMode::encrypt_bytes): the
chaining buffer starts at the IV (none models the copy_from_slice panic
when the IV is not 16 bytes); after the full blocks, a final block is
always appended: the remainder padded with (16 - remainder) copies of the
byte (16 - remainder) when the length is not a multiple of 16, or a whole
block of the byte 0x10 otherwise. -/
def cbcEncryptBytes (enc : List Nat → List Nat) (iv plain : List Nat) :
    Option (List Nat) :=
  if iv.length != 16 then none
  else
    let q := plain.length / 16
    let r := plain.length % 16
    let blocks := cbcEncGo enc iv plain q
    let lastBlock :=
      if r != 0 then plain.drop (16 * q) ++ List.replicate (16 - r) (16 - r)
      else List.replicate 16 0x10
    some ((blocks.1 ++ [enc (xorBytes blocks.2 lastBlock)]).flatten)

/-- Split a byte list into 16-byte pieces (the per-block slicing of
src/sm4/cbc.rs, decrypt_bytes). -/
def chunks16 (l : List Nat) : List (List Nat) :=
  if l = [] then [] else l.take 16 :: chunks16 (l.drop 16)
termination_by l.length
decreasing_by
  simp only [List.length_drop]
  cases l with
  | nil => simp_all
  | cons a t => simp; omega

/-- The block loop of CBC decryption (src/sm4/cbc.rs, decrypt_bytes):
decrypt each cipher block, XOR with the chaining buffer, emit, and chain
the cipher block. -/
def cbcDecGo (dec : List Nat → List Nat) (buf : List Nat) :
    List (List Nat) → List Nat
  | [] => []
  | c :: cs => xorBytes buf (dec c) ++ cbcDecGo dec c cs

/-- CBC decryption (src/sm4/cbc.rs, CryptoMode::decrypt_bytes).
Panics, modelled as none: a ciphertext length that is not a multiple of
16; an IV that is not 16 bytes (copy_from_slice); the expression
out[cipher.len() - 1] when the ciphertext is empty (usize underflow
before the index); and the usize subtraction cipher.len() - last_byte
inside resize when the deciphered final byte exceeds the length.
The padding byte count is dropped without checking it is between 1 and 16
or that the padding bytes match. -/
def cbcDecryptBytes (dec : List Nat → List Nat) (iv cipher : List Nat) :
    Option (List Nat) :=
  if cipher.length % 16 != 0 then none
  else if iv.length != 16 then none
  else
    let out := cbcDecGo dec iv (chunks16 cipher)
    if cipher.length = 0 then none
    else
      match out.get? (cipher.length - 1) with
      | none => none
      | some lastByte =>
        if cipher.length < lastByte then none
        else some (out.take (cipher.length - lastByte))

/- ===================== Constant-time select and conditional copy (src/sm2/p256/point.rs) ===================== -/

/-- The branch-free index-equality mask of table select
(src/sm2/p256/point.rs, P256AffinePoint::select): spread the bits of
i XOR index into bit 0, keep bit 0, then map 0 to 0xFFFFFFFF and nonzero
to 0 by the wrapping decrement. -/
def selMask (i index : Nat) : Nat :=
  let m0 := i ^^^ index
  let m1 := m0 ||| (m0 >>> 2)
  let m2 := m1 ||| (m1 >>> 1)
  let m3 := m2 &&& 1
  if m3 = 0 then 4294967295 else m3 - 1

/-- One accumulation step of table select for table row i
(src/sm2/p256/point.rs, P256AffinePoint::select, loop body): OR each of
the 9 limbs of the row's x and y entries, masked, into the accumulator;
row i occupies the 18 words at offset (i - 1) * 18. -/
def selectStep (index : Nat) (table : List Nat)
    (xy : List Nat × List Nat) (i : Nat) : List Nat × List Nat :=
  ((List.range 9).map (fun j =>
      xy.1.getD j 0 ||| (table.getD ((i - 1) * 18 + j) 0 &&& selMask i index)),
   (List.range 9).map (fun j =>
      xy.2.getD j 0 ||| (table.getD ((i - 1) * 18 + 9 + j) 0 &&& selMask i index)))

/-- Table select (src/sm2/p256/point.rs, P256AffinePoint::select): starting
from the zero point, OR-accumulate all 15 table rows through the
index-equality mask. -/
def selectPoint (index : Nat) (table : List Nat) : List Nat × List Nat :=
  (List.range' 1 15).foldl (selectStep index table)
    (List.replicate 9 0, List.replicate 9 0)

/-- The x limbs of table row idx (for stating what select returns). -/
def rowX (idx : Nat) (table : List Nat) : List Nat :=
  (List.range 9).map (fun j => table.getD ((idx - 1) * 18 + j) 0)

/-- The y limbs of table row idx (for stating what select returns). -/
def rowY (idx : Nat) (table : List Nat) : List Nat :=
  (List.range 9).map (fun j => table.getD ((idx - 1) * 18 + 9 + j) 0)

/-- Conditional copy (src/sm2/p256/point.rs,
P256JacobianPoint::copy_from_with_conditional): every limb i of every
coordinate becomes self[i] XOR (mask AND (source[i] XOR self[i])),
with no branching. -/
def copyCond (p src : List Nat × List Nat × List Nat) (mask : Nat) :
    List Nat × List Nat × List Nat :=
  ((List.range 9).map (fun i => p.1.getD i 0 ^^^ (mask &&& (src.1.getD i 0 ^^^ p.1.getD i 0))),
   (List.range 9).map (fun i => p.2.1.getD i 0 ^^^ (mask &&& (src.2.1.getD i 0 ^^^ p.2.1.getD i 0))),
   (List.range 9).map (fun i => p.2.2.getD i 0 ^^^ (mask &&& (src.2.2.getD i 0 ^^^ p.2.2.getD i 0))))

/- ===================== Helper lemmas ===================== -/

/-- SM3 always produces 32 bytes of output. -/
theorem sm3hash_length (data : List Nat) : (sm3hash data).length = 32 := rfl

theorem natToBytesBE_ne_nil (v : Nat) : natToBytesBE v ≠ [] := by
  unfold natToBytesBE
  split <;> simp

theorem natToBytesBE_length_le :
    ∀ k v : Nat, v < 256 ^ (k + 1) → (natToBytesBE v).length ≤ k + 1 := by
  intro k
  induction k with
  | zero =>
    intro v hv
    unfold natToBytesBE
    rw [if_pos (by simpa using hv)]
    simp
  | succ k ih =>
    intro v hv
    unfold natToBytesBE
    split
    · simp
    · rw [List.length_append]
      have hdiv : v / 256 < 256 ^ (k + 1) := by
        rw [Nat.div_lt_iff_lt_mul (by norm_num)]
        calc v < 256 ^ (k + 1 + 1) := hv
        _ = 256 ^ (k + 1) * 256 := by ring
      have := ih (v / 256) hdiv
      simpa using this

theorem natToBytesBE_length_eq :
    ∀ k v : Nat, 256 ^ k ≤ v → v < 256 ^ (k + 1) →
      (natToBytesBE v).length = k + 1 := by
  intro k
  induction k with
  | zero =>
    intro v h1 hv
    unfold natToBytesBE
    rw [if_pos (by simpa using hv)]
    simp
  | succ k ih =>
    intro v h1 hv
    unfold natToBytesBE
    rw [if_neg (by
      have : (256:Nat) ≤ 256 ^ (k + 1) := by
        calc (256:Nat) = 256 ^ 1 := by norm_num
        _ ≤ 256 ^ (k + 1) := Nat.pow_le_pow_right (by norm_num) (by omega)
      omega)]
    rw [List.length_append]
    have hlow : 256 ^ k ≤ v / 256 := by
      rw [Nat.le_div_iff_mul_le (by norm_num)]
      calc 256 ^ k * 256 = 256 ^ (k + 1) := by ring
      _ ≤ v := h1
    have hhi : v / 256 < 256 ^ (k + 1) := by
      rw [Nat.div_lt_iff_lt_mul (by norm_num)]
      calc v < 256 ^ (k + 1 + 1) := hv
      _ = 256 ^ (k + 1) * 256 := by ring
    have := ih (v / 256) hlow hhi
    simp [this]

/-- The final byte emitted by to_bytes_be is the value mod 256. -/
theorem natToBytesBE_getLast (v : Nat) :
    (natToBytesBE v).getLast? = some (v % 256) := by
  rw [natToBytesBE]
  split
  · simp [Nat.mod_eq_of_lt (by assumption)]
  · exact List.getLast?_concat _

/-- The length of the kdf loop output: each iteration but the last emits a
full 32-byte hash block; the last emits len mod 32 bytes when len is not a
multiple of 32. -/
theorem kdfGo_length (data : List Nat) (len : Nat) :
    ∀ r c, (kdfGo data len c (r + 1)).length
      = 32 * r + (if len % 32 = 0 then 32 else len % 32) := by
  intro r
  induction r with
  | zero =>
    intro c
    have hlt : len % 32 < 32 := Nat.mod_lt len (by omega)
    by_cases h : len % 32 = 0
    · simp [kdfGo, h, sm3hash_length]
    · simp [kdfGo, h, sm3hash_length]
      omega
  | succ r ih =>
    intro c
    have : r + 1 + 1 = (r + 1) + 1 := rfl
    simp only [kdfGo, List.length_append, ih (c + 1), sm3hash_length]
    ring

/-- The kdf output length when the requested length is a multiple of 32:
one full block per byte of the input (the operator-precedence slip makes
the block count equal the input length, not the requested length over 32). -/
theorem kdf_length_of_mod32 (data : List Nat) (len : Nat)
    (hd : data ≠ []) (hlen : len % 32 = 0) :
    (kdf data len).length = 32 * data.length := by
  obtain ⟨a, t, rfl⟩ := List.exists_cons_of_ne_nil hd
  have : (a :: t).length + 31 / 32 = t.length + 1 := by simp
  rw [kdf, this, kdfGo_length, if_pos hlen]
  simp
  ring

/-- The C2 loop panics when the plaintext is longer than the kdf output. -/
theorem xorLoop_eq_none :
    ∀ data t : List Nat, t.length < data.length → xorLoop data t = none := by
  intro data
  induction data with
  | nil => intro t h; simp at h
  | cons d ds ih =>
    intro t h
    cases t with
    | nil => rfl
    | cons x xs =>
      simp only [xorLoop]
      rw [ih xs (by simpa using h)]
      rfl

theorem hexEncode_length (bs : List Nat) : (hexEncode bs).length = 2 * bs.length := by
  induction bs with
  | nil => rfl
  | cons b t ih => simp [hexEncode] at ih ⊢; omega

/- ===================== Claim C3 ===================== -/

/-- Claim C3: the spec requires kdf(data, len) to emit ceil(len / 32)
blocks truncated to len bytes, so its output length should be len.  The
code computes the block count as data.len() + 31 / 32, which by operator
precedence is data.len(); on data of two bytes with requested length 1 the
output has 33 bytes instead of 1.  This confirms the code bug the spec
flags: the spec is the intent, the code deviates. -/
theorem C3_kdf_block_count_bug :
    (kdf [0, 0] 1).length = 33 ∧ (kdf [0, 0] 1).length ≠ 1 := by
  have h2 : ([0, 0] : List Nat).length + 31 / 32 = 1 + 1 := by simp
  have := kdfGo_length [0, 0] 1 1 1
  rw [kdf, h2, this]
  norm_num

/- ===================== Claim C4 ===================== -/

/-- Claim C4: the spec requires the Z_A preimage to contain the curve
coefficients a then b; the code binds (a, b) to (e.a, e.a) and therefore
hashes the coefficient a twice, so the byte string the code hashes differs
from the one the claim prescribes (shown at the public key (1, 1)).
This confirms the code bug the spec flags. -/
theorem C4_za_preimage_uses_a_for_b :
    digestPreimage 1 1 ≠ zaSpecPreimage 1 1 := by
  intro h
  simp only [digestPreimage, zaSpecPreimage, List.append_assoc] at h
  have h2 : natToBytesBE ecA = natToBytesBE ecB :=
    List.append_cancel_right
      (List.append_cancel_left (List.append_cancel_left (List.append_cancel_left h)))
  have h3 := congrArg List.getLast? h2
  rw [natToBytesBE_getLast, natToBytesBE_getLast] at h3
  norm_num [ecA, ecB] at h3

/- ===================== Claim C6 ===================== -/

/-- Claim C6 counterexample: PrivateKey::encode does not left-zero-pad a
key with fewer than 32 significant bytes; it panics.  At d = 1 the claim
demands the 64-character encoding of 31 zero bytes and the byte 1, but the
code produces no string at all. -/
theorem C6_encode_short_key_panics : privateKeyEncode 1 = none := by
  rw [privateKeyEncode, natToBytesBE]
  norm_num

/-- Claim C6 amended: for private keys whose big-endian encoding has
exactly 32 bytes (2^248 <= d < 2^256), encode returns the lowercase hex of
the 32-byte big-endian encoding, a 64-character string; for smaller keys
it panics instead of padding. -/
theorem C6_encode_full_length_key (d : Nat) (h1 : 2 ^ 248 ≤ d) (h2 : d < 2 ^ 256) :
    privateKeyEncode d = some (hexEncode (natToBytesBE d)) ∧
      (hexEncode (natToBytesBE d)).length = 64 := by
  have hlen : (natToBytesBE d).length = 32 := by
    have := natToBytesBE_length_eq 31 d (by norm_num at h1 ⊢; omega) (by norm_num at h2 ⊢; omega)
    omega
  constructor
  · rw [privateKeyEncode]
    simp [hlen]
  · rw [hexEncode_length, hlen]

/-- Witness for the amended C6 theorem at d = 2^248. -/
theorem C6_encode_full_length_key_witness :
    privateKeyEncode (2 ^ 248) = some (hexEncode (natToBytesBE (2 ^ 248))) ∧
      (hexEncode (natToBytesBE (2 ^ 248))).length = 64 :=
  C6_encode_full_length_key (2 ^ 248) (Nat.le_refl _) (by norm_num)

/- ===================== Claim C7 ===================== -/

/-- Claim C7: whatever random value k the generator draws, the private key
k mod (n - 2) + 1 lies in [1, n - 2]. -/
theorem C7_private_key_in_range (k : Nat) :
    1 ≤ genPrivateKey k ∧ genPrivateKey k ≤ ecN - 2 := by
  unfold genPrivateKey
  have hpos : 0 < ecN - 2 := by decide
  have := Nat.mod_lt k hpos
  omega

/- ===================== Claim C1 ===================== -/

/-- Claim C1 claims decrypt(d, encrypt(pub(d), M)) = M for every plaintext
M and every nonce k.  Because the kdf block count is the length of
x2 bytes concatenated with y2 bytes (at most 64) instead of
ceil(len / 32), the kdf output never exceeds 2048 bytes, so for the
2080-byte plaintext longMsg the C2 XOR loop of Encryptor::execute indexes
t out of bounds and panics (or, if the kdf output were all zero, retries)
for every nonce k and every builder whose scalar_multiply coordinates are
below 2^256 (the P256 builder reduces mod p < 2^256 when restoring from
Montgomery form): encryption never produces a ciphertext, so no decryption
can return M.  This confirms the code bug behind the claim's failure. -/
theorem C1_encrypt_long_plaintext_never_succeeds
    (bmul : Nat → Nat × Nat) (smul : Nat → Nat → Nat → Nat × Nat)
    (mode : SM2Mode) (d k : Nat)
    (hs : ∀ x y t, (smul x y t).1 < 2 ^ 256 ∧ (smul x y t).2 < 2 ^ 256) :
    (encryptStep bmul smul mode (bmul d).1 (bmul d).2 longMsg k).isOk = false := by
  have hx := (hs (bmul d).1 (bmul d).2 k).1
  have hy := (hs (bmul d).1 (bmul d).2 k).2
  have hpow : (2 : Nat) ^ 256 = 256 ^ (31 + 1) := by norm_num
  have hl1 : (natToBytesBE (smul (bmul d).1 (bmul d).2 k).1).length ≤ 32 :=
    natToBytesBE_length_le 31 _ (by rw [← hpow]; exact hx)
  have hl2 : (natToBytesBE (smul (bmul d).1 (bmul d).2 k).2).length ≤ 32 :=
    natToBytesBE_length_le 31 _ (by rw [← hpow]; exact hy)
  have hmlen : longMsg.length = 2080 := by
    rw [longMsg, List.length_replicate]
  have htlen :
      (kdf (natToBytesBE (smul (bmul d).1 (bmul d).2 k).1 ++
            natToBytesBE (smul (bmul d).1 (bmul d).2 k).2) longMsg.length).length
        < longMsg.length := by
    rw [kdf_length_of_mod32 _ _
      (fun hnil => natToBytesBE_ne_nil _ (List.append_eq_nil.mp hnil).1)
      (by rw [hmlen])]
    rw [List.length_append, hmlen]
    omega
  simp only [encryptStep]
  split
  · rfl
  · rw [xorLoop_eq_none _ _ htlen]
    rfl

/-- Witness for the C1 theorem: the toy builder keeps every coordinate
below n < 2^256, and with it the encryption step at d = 1, k = 1 indeed
fails to produce a ciphertext. -/
theorem C1_encrypt_long_plaintext_never_succeeds_witness :
    (encryptStep toyBmul toySmul SM2Mode.C1C3C2
      (toyBmul 1).1 (toyBmul 1).2 longMsg 1).isOk = false :=
  C1_encrypt_long_plaintext_never_succeeds toyBmul toySmul SM2Mode.C1C3C2 1 1
    (fun x y t => by
      refine ⟨?_, by simp [toySmul]⟩
      simp only [toySmul]
      exact lt_trans (Nat.mod_lt _ (by norm_num [ecN])) (by norm_num [ecN]))

/- ===================== Claim C9 ===================== -/

/-- Claim C9: CBC decrypt_bytes removes padding by reading the final
deciphered byte and dropping that many bytes with no validation, and it is
not total on well-formed-length ciphertexts: on the empty ciphertext
(length 0, a multiple of 16) the expression out[cipher.len() - 1]
underflows and the function panics instead of returning an error. -/
theorem C9_cbc_decrypt_empty_cipher_panics :
    (List.length ([] : List Nat)) % 16 = 0 ∧
      cbcDecryptBytes (sm4DecryptBlock (fun x => x) (List.replicate 32 0))
        (List.replicate 16 0) [] = none := by
  constructor
  · rfl
  · rw [cbcDecryptBytes]
    simp

/- ===================== Claim C10 lemmas ===================== -/

/-- Reading the limb list through getD reproduces the list. -/
theorem map_range_getD (l : List Nat) :
    (List.range l.length).map (fun i => l.getD i 0) = l := by
  induction l with
  | nil => rfl
  | cons a t ih =>
    rw [List.length_cons, List.range_succ_eq_map, List.map_cons, List.map_map]
    exact congrArg (List.cons a) ih

/-- Every getD access into a bounded list is bounded (the default is 0). -/
theorem getD_lt_of_forall {l : List Nat} {c : Nat} (hc : 0 < c)
    (h : ∀ e ∈ l, e < c) (i : Nat) : l.getD i 0 < c := by
  rw [List.getD_eq_getElem?_getD]
  cases hg : l[i]? with
  | none => simpa using hc
  | some a =>
    have := h a (by
      have := List.getElem?_eq_some_iff.mp hg
      obtain ⟨hlt, he⟩ := this
      exact he ▸ List.getElem_mem hlt)
    simpa [hg] using this

/-- The branch-free mask equals the index-equality predicate: for 4-bit
inputs it is 0xFFFFFFFF exactly on the matching row and 0 elsewhere. -/
theorem selMask_eq :
    ∀ i < 16, ∀ idx < 16, selMask i idx = if i = idx then 4294967295 else 0 := by
  decide

/-- Accumulation steps of non-matching rows leave the accumulator
unchanged: the row is still read and masked, but contributes zero bits. -/
theorem selectStep_of_mask_zero (idx : Nat) (table : List Nat)
    (xy : List Nat × List Nat) (i : Nat)
    (h1 : xy.1.length = 9) (h2 : xy.2.length = 9)
    (hm : selMask i idx = 0) :
    selectStep idx table xy i = xy := by
  obtain ⟨x, y⟩ := xy
  simp only at h1 h2
  simp only [selectStep, hm, Nat.and_zero, Nat.or_zero]
  refine congrArg₂ Prod.mk ?_ ?_
  · rw [← h1]; exact map_range_getD x
  · rw [← h2]; exact map_range_getD y

/-- Folding accumulation steps of non-matching rows over any row list
leaves the accumulator unchanged. -/
theorem foldl_selectStep_of_mask_zero (idx : Nat) (table : List Nat) :
    ∀ (L : List Nat) (xy : List Nat × List Nat),
      xy.1.length = 9 → xy.2.length = 9 →
      (∀ i ∈ L, selMask i idx = 0) →
      L.foldl (selectStep idx table) xy = xy := by
  intro L
  induction L with
  | nil => intro xy _ _ _; rfl
  | cons i L ih =>
    intro xy h1 h2 hL
    rw [List.foldl_cons, selectStep_of_mask_zero idx table xy i h1 h2 (hL i (by simp))]
    exact ih xy h1 h2 (fun j hj => hL j (by simp [hj]))

/-- The matching accumulation step over the zero accumulator yields
exactly the table row (given 32-bit table entries). -/
theorem selectStep_of_mask_full (idx : Nat) (table : List Nat)
    (ht : ∀ e ∈ table, e < 2 ^ 32)
    (hm : selMask idx idx = 4294967295) :
    selectStep idx table (List.replicate 9 0, List.replicate 9 0) idx
      = (rowX idx table, rowY idx table) := by
  have hrep : ∀ j : Nat, (List.replicate 9 (0 : Nat)).getD j 0 = 0 := by
    intro j
    rw [List.getD_eq_getElem?_getD, List.getElem?_replicate]
    split <;> simp
  have hmask : (4294967295 : Nat) = 2 ^ 32 - 1 := by norm_num
  simp only [selectStep, hm, hrep, Nat.zero_or, rowX, rowY]
  refine congrArg₂ Prod.mk ?_ ?_ <;>
  · apply List.map_congr_left
    intro j _
    rw [hmask, Nat.and_pow_two_sub_one_of_lt_two_pow (getD_lt_of_forall (by norm_num) ht _)]

/-- Lengths of the stated table rows. -/
theorem rowX_length (idx : Nat) (table : List Nat) : (rowX idx table).length = 9 := by
  simp [rowX]

theorem rowY_length (idx : Nat) (table : List Nat) : (rowY idx table).length = 9 := by
  simp [rowY]

/-- Conditional copy with mask 0 returns the first point unchanged
(limb lists of length 9). -/
theorem copyCond_mask_zero (p src : List Nat × List Nat × List Nat)
    (h1 : p.1.length = 9) (h2 : p.2.1.length = 9) (h3 : p.2.2.length = 9) :
    copyCond p src 0 = p := by
  obtain ⟨a, b, c⟩ := p
  simp only at h1 h2 h3
  simp only [copyCond, Nat.zero_and, Nat.xor_zero]
  refine congrArg₂ Prod.mk ?_ (congrArg₂ Prod.mk ?_ ?_)
  · rw [← h1]; exact map_range_getD a
  · rw [← h2]; exact map_range_getD b
  · rw [← h3]; exact map_range_getD c

/-- One limb of the conditional copy with the all-ones mask. -/
theorem copy_limb_full (a b : Nat) (ha : a < 2 ^ 32) (hb : b < 2 ^ 32) :
    a ^^^ (4294967295 &&& (b ^^^ a)) = b := by
  have hmask : (4294967295 : Nat) = 2 ^ 32 - 1 := by norm_num
  rw [hmask, Nat.and_comm,
    Nat.and_pow_two_sub_one_of_lt_two_pow (Nat.xor_lt_two_pow hb ha),
    Nat.xor_comm b a, ← Nat.xor_assoc, Nat.xor_self, Nat.zero_xor]

/-- Conditional copy with mask 0xFFFFFFFF returns the source point
(limb lists of length 9, limbs below 2^32). -/
theorem copyCond_mask_full (p src : List Nat × List Nat × List Nat)
    (h1 : src.1.length = 9) (h2 : src.2.1.length = 9) (h3 : src.2.2.length = 9)
    (hbp : (∀ e ∈ p.1, e < 2 ^ 32) ∧ (∀ e ∈ p.2.1, e < 2 ^ 32) ∧ (∀ e ∈ p.2.2, e < 2 ^ 32))
    (hbs : (∀ e ∈ src.1, e < 2 ^ 32) ∧ (∀ e ∈ src.2.1, e < 2 ^ 32) ∧ (∀ e ∈ src.2.2, e < 2 ^ 32)) :
    copyCond p src 4294967295 = src := by
  obtain ⟨a, b, c⟩ := p
  obtain ⟨x, y, z⟩ := src
  simp only at h1 h2 h3
  obtain ⟨hba, hbb, hbc⟩ := hbp
  obtain ⟨hbx, hby, hbz⟩ := hbs
  simp only [copyCond]
  refine congrArg₂ Prod.mk ?_ (congrArg₂ Prod.mk ?_ ?_)
  · calc (List.range 9).map (fun i => a.getD i 0 ^^^ (4294967295 &&& (x.getD i 0 ^^^ a.getD i 0)))
        = (List.range 9).map (fun i => x.getD i 0) := by
          apply List.map_congr_left
          intro j _
          exact copy_limb_full _ _ (getD_lt_of_forall (by norm_num) hba j) (getD_lt_of_forall (by norm_num) hbx j)
    _ = x := by rw [← h1]; exact map_range_getD x
  · calc (List.range 9).map (fun i => b.getD i 0 ^^^ (4294967295 &&& (y.getD i 0 ^^^ b.getD i 0)))
        = (List.range 9).map (fun i => y.getD i 0) := by
          apply List.map_congr_left
          intro j _
          exact copy_limb_full _ _ (getD_lt_of_forall (by norm_num) hbb j) (getD_lt_of_forall (by norm_num) hby j)
    _ = y := by rw [← h2]; exact map_range_getD y
  · calc (List.range 9).map (fun i => c.getD i 0 ^^^ (4294967295 &&& (z.getD i 0 ^^^ c.getD i 0)))
        = (List.range 9).map (fun i => z.getD i 0) := by
          apply List.map_congr_left
          intro j _
          exact copy_limb_full _ _ (getD_lt_of_forall (by norm_num) hbc j) (getD_lt_of_forall (by norm_num) hbz j)
    _ = z := by rw [← h3]; exact map_range_getD z

/- ===================== Claim C10 ===================== -/

/-- Claim C10: table select OR-accumulates all 15 table rows through the
branch-free index-equality mask, so for a 4-bit index it returns the
selected row (the zero point for index 0) while touching every row; and
conditional copy touches every limb and returns self for mask 0 and
source for mask 0xFFFFFFFF.  Stated for 32-bit table entries and limbs,
which the source invariants guarantee. -/
theorem C10_select_and_conditional_copy (table : List Nat)
    (ht : ∀ e ∈ table, e < 2 ^ 32) (idx : Nat) (hidx : idx ≤ 15)
    (p src : List Nat × List Nat × List Nat)
    (hlp : p.1.length = 9 ∧ p.2.1.length = 9 ∧ p.2.2.length = 9)
    (hls : src.1.length = 9 ∧ src.2.1.length = 9 ∧ src.2.2.length = 9)
    (hbp : (∀ e ∈ p.1, e < 2 ^ 32) ∧ (∀ e ∈ p.2.1, e < 2 ^ 32) ∧ (∀ e ∈ p.2.2, e < 2 ^ 32))
    (hbs : (∀ e ∈ src.1, e < 2 ^ 32) ∧ (∀ e ∈ src.2.1, e < 2 ^ 32) ∧ (∀ e ∈ src.2.2, e < 2 ^ 32)) :
    selectPoint idx table =
      (if idx = 0 then (List.replicate 9 0, List.replicate 9 0)
       else (rowX idx table, rowY idx table))
    ∧ copyCond p src 0 = p ∧ copyCond p src 4294967295 = src := by
  refine ⟨?_, copyCond_mask_zero p src hlp.1 hlp.2.1 hlp.2.2,
    copyCond_mask_full p src hls.1 hls.2.1 hls.2.2 hbp hbs⟩
  by_cases h0 : idx = 0
  · subst h0
    rw [if_pos rfl, selectPoint]
    apply foldl_selectStep_of_mask_zero _ _ _ _ (by simp) (by simp)
    intro i hi
    obtain ⟨j, hj, rfl⟩ := List.mem_range'.mp hi
    rw [selMask_eq _ (by omega) 0 (by omega), if_neg (by omega)]
  · have hsplit : List.range' 1 15
        = List.range' 1 (idx - 1) ++ idx :: List.range' (idx + 1) (15 - idx) := by
      have e1 : 16 - idx = (15 - idx) + 1 := by omega
      have e3 : (16 - idx) + (idx - 1) = 15 := by omega
      calc List.range' 1 15 = List.range' 1 ((16 - idx) + (idx - 1)) := by rw [e3]
      _ = List.range' 1 (idx - 1) ++ List.range' (1 + (idx - 1)) (16 - idx) :=
        (List.range'_append_1 _ _ _).symm
      _ = List.range' 1 (idx - 1) ++ idx :: List.range' (idx + 1) (15 - idx) := by
        rw [show 1 + (idx - 1) = idx by omega, e1, List.range'_succ]
    have hlow : ∀ i ∈ List.range' 1 (idx - 1), selMask i idx = 0 := by
      intro i hi
      obtain ⟨j, hj, rfl⟩ := List.mem_range'.mp hi
      rw [selMask_eq _ (by omega) idx (by omega), if_neg (by omega)]
    have hhigh : ∀ i ∈ List.range' (idx + 1) (15 - idx), selMask i idx = 0 := by
      intro i hi
      obtain ⟨j, hj, rfl⟩ := List.mem_range'.mp hi
      rw [selMask_eq _ (by omega) idx (by omega), if_neg (by omega)]
    have hfull : selMask idx idx = 4294967295 := by
      rw [selMask_eq idx (by omega) idx (by omega), if_pos rfl]
    rw [if_neg h0, selectPoint, hsplit, List.foldl_append,
      foldl_selectStep_of_mask_zero idx table _ _ (by simp) (by simp) hlow,
      List.foldl_cons, selectStep_of_mask_full idx table ht hfull]
    exact foldl_selectStep_of_mask_zero idx table _ _
      (rowX_length _ _) (rowY_length _ _) hhigh

/-- Witness for the C10 theorem at index 3 over the table 0..269 and two
concrete Jacobian points. -/
theorem C10_select_and_conditional_copy_witness :
    selectPoint 3 (List.range 270) =
      (if 3 = 0 then (List.replicate 9 0, List.replicate 9 0)
       else (rowX 3 (List.range 270), rowY 3 (List.range 270)))
    ∧ copyCond (List.replicate 9 1, List.replicate 9 2, List.replicate 9 3)
        (List.replicate 9 4, List.replicate 9 5, List.replicate 9 6) 0
      = (List.replicate 9 1, List.replicate 9 2, List.replicate 9 3)
    ∧ copyCond (List.replicate 9 1, List.replicate 9 2, List.replicate 9 3)
        (List.replicate 9 4, List.replicate 9 5, List.replicate 9 6) 4294967295
      = (List.replicate 9 4, List.replicate 9 5, List.replicate 9 6) :=
  C10_select_and_conditional_copy (List.range 270)
    (by intro e he; have := List.mem_range.mp he; omega)
    3 (by omega) _ _
    (by refine ⟨?_, ?_, ?_⟩ <;> simp)
    (by refine ⟨?_, ?_, ?_⟩ <;> simp)
    (by
      refine ⟨?_, ?_, ?_⟩ <;>
      · intro e he
        have := List.eq_of_mem_replicate he
        omega)
    (by
      refine ⟨?_, ?_, ?_⟩ <;>
      · intro e he
        have := List.eq_of_mem_replicate he
        omega)

/- ===================== SM4 block-level lemmas ===================== -/

/-- One Feistel round is undone by the same round after the word
reversal: the swap-XOR structure needs no property of T. -/
theorem sm4Round_rev (T : Nat → Nat) (st : Nat × Nat × Nat × Nat) (k : Nat) :
    sm4Round T (rev4 (sm4Round T st k)) k = rev4 st := by
  obtain ⟨a, b, c, d⟩ := st
  simp only [sm4Round, rev4]
  refine congrArg₂ Prod.mk rfl (congrArg₂ Prod.mk rfl (congrArg₂ Prod.mk rfl ?_))
  have harg : d ^^^ c ^^^ b ^^^ k = b ^^^ c ^^^ d ^^^ k := by
    have h1 : d ^^^ c ^^^ b = b ^^^ c ^^^ d := by
      rw [Nat.xor_assoc, Nat.xor_comm d, Nat.xor_comm c b, Nat.xor_assoc]
    rw [h1]
  rw [harg, Nat.xor_assoc, Nat.xor_self, Nat.xor_zero]

/-- Running the rounds with the reversed key list undoes the rounds, up to
the word reversal. -/
theorem sm4Rounds_reverse (T : Nat → Nat) :
    ∀ (ks : List Nat) (st : Nat × Nat × Nat × Nat),
      sm4Rounds T (rev4 (sm4Rounds T st ks)) ks.reverse = rev4 st := by
  intro ks
  induction ks with
  | nil => intro st; rfl
  | cons k ks ih =>
    intro st
    show sm4Rounds T (rev4 (sm4Rounds T (sm4Round T st k) ks)) (k :: ks).reverse = rev4 st
    rw [List.reverse_cons]
    have hsplit : sm4Rounds T (rev4 (sm4Rounds T (sm4Round T st k) ks)) (ks.reverse ++ [k])
        = sm4Rounds T (sm4Rounds T (rev4 (sm4Rounds T (sm4Round T st k) ks)) ks.reverse) [k] := by
      simp only [sm4Rounds]
      rw [List.foldl_append]
    rw [hsplit, ih (sm4Round T st k)]
    exact sm4Round_rev T st k

/-- The rounds keep every word below 2^32 (the new word is an XOR of a
bounded word with a masked value). -/
theorem sm4Rounds_lt (T : Nat → Nat) :
    ∀ (ks : List Nat) (st : Nat × Nat × Nat × Nat),
      st.1 < U32M → st.2.1 < U32M → st.2.2.1 < U32M → st.2.2.2 < U32M →
      (sm4Rounds T st ks).1 < U32M ∧ (sm4Rounds T st ks).2.1 < U32M ∧
        (sm4Rounds T st ks).2.2.1 < U32M ∧ (sm4Rounds T st ks).2.2.2 < U32M := by
  intro ks
  induction ks with
  | nil => intro st h1 h2 h3 h4; exact ⟨h1, h2, h3, h4⟩
  | cons k ks ih =>
    intro st h1 h2 h3 h4
    have hnew : (sm4Round T st k).2.2.2 < U32M := by
      have hm : T (st.2.1 ^^^ st.2.2.1 ^^^ st.2.2.2 ^^^ k) % U32M < U32M :=
        Nat.mod_lt _ (by rw [U32M]; omega)
      have : U32M = 2 ^ 32 := by rw [U32M]; norm_num
      rw [sm4Round]
      simp only
      rw [this] at h1 hm ⊢
      exact Nat.xor_lt_two_pow h1 hm
    exact ih (sm4Round T st k) h2 h3 h4 hnew

/-- Packing the unpacked words recovers them when they are 32-bit. -/
theorem packBlock_unpackBlock (st : Nat × Nat × Nat × Nat)
    (h1 : st.1 < U32M) (h2 : st.2.1 < U32M) (h3 : st.2.2.1 < U32M)
    (h4 : st.2.2.2 < U32M) :
    packBlock (unpackBlock st) = st := by
  obtain ⟨a, b, c, d⟩ := st
  simp only at h1 h2 h3 h4
  rw [U32M] at h1 h2 h3 h4
  simp only [packBlock, unpackBlock, List.getD_cons_zero, List.getD_cons_succ]
  refine congrArg₂ Prod.mk ?_ (congrArg₂ Prod.mk ?_ (congrArg₂ Prod.mk ?_ ?_)) <;> omega

/-- Unpacking the packed bytes recovers them when they are bytes. -/
theorem unpackBlock_packBlock (b : List Nat) (hlen : b.length = 16)
    (hb : ∀ e ∈ b, e < 256) :
    unpackBlock (packBlock b) = b := by
  match b, hlen with
  | [b0, b1, b2, b3, b4, b5, b6, b7, b8, b9, b10, b11, b12, b13, b14, b15], _ =>
    have h0 := hb b0 (by simp)
    have h1 := hb b1 (by simp)
    have h2 := hb b2 (by simp)
    have h3 := hb b3 (by simp)
    have h4 := hb b4 (by simp)
    have h5 := hb b5 (by simp)
    have h6 := hb b6 (by simp)
    have h7 := hb b7 (by simp)
    have h8 := hb b8 (by simp)
    have h9 := hb b9 (by simp)
    have h10 := hb b10 (by simp)
    have h11 := hb b11 (by simp)
    have h12 := hb b12 (by simp)
    have h13 := hb b13 (by simp)
    have h14 := hb b14 (by simp)
    have h15 := hb b15 (by simp)
    simp only [unpackBlock, packBlock, List.getD_cons_zero, List.getD_cons_succ]
    refine List.ext_getElem (by simp) ?_
    intro i hi1 hi2
    simp only [List.length_cons, List.length_nil] at hi1
    norm_num at hi1
    interval_cases i <;> simp <;> omega

/-- The byte length of a cipher block is always 16. -/
theorem sm4EncryptBlock_length (T : Nat → Nat) (ks b : List Nat) :
    (sm4EncryptBlock T ks b).length = 16 := rfl

/-- Every byte of a cipher block is below 256. -/
theorem sm4EncryptBlock_bytes_lt (T : Nat → Nat) (ks b : List Nat) :
    ∀ e ∈ sm4EncryptBlock T ks b, e < 256 := by
  intro e he
  rw [sm4EncryptBlock, unpackBlock] at he
  simp only [List.mem_cons, List.not_mem_nil, or_false] at he
  rcases he with rfl | rfl | rfl | rfl | rfl | rfl | rfl | rfl |
    rfl | rfl | rfl | rfl | rfl | rfl | rfl | rfl <;>
    exact Nat.mod_lt _ (by omega)

/-- Modelled block decryption inverts modelled block encryption on every
16-byte block. -/
theorem sm4Block_roundtrip (T : Nat → Nat) (ks b : List Nat)
    (hlen : b.length = 16) (hb : ∀ e ∈ b, e < 256) :
    sm4DecryptBlock T ks (sm4EncryptBlock T ks b) = b := by
  have hword : ∀ x y z w : Nat, x < 256 → y < 256 → z < 256 → w < 256 →
      x * 16777216 + y * 65536 + z * 256 + w < U32M := by
    intro x y z w hx hy hz hw
    rw [U32M]
    omega
  have hpb : (packBlock b).1 < U32M ∧ (packBlock b).2.1 < U32M ∧
      (packBlock b).2.2.1 < U32M ∧ (packBlock b).2.2.2 < U32M := by
    refine ⟨?_, ?_, ?_, ?_⟩ <;>
    · rw [packBlock]
      exact hword _ _ _ _ (getD_lt_of_forall (by omega) hb _) (getD_lt_of_forall (by omega) hb _)
        (getD_lt_of_forall (by omega) hb _) (getD_lt_of_forall (by omega) hb _)
  have hr := sm4Rounds_lt T ks (packBlock b) hpb.1 hpb.2.1 hpb.2.2.1 hpb.2.2.2
  rw [sm4DecryptBlock, sm4EncryptBlock,
    packBlock_unpackBlock _ hr.2.2.2 hr.2.2.1 hr.2.1 hr.1,
    sm4Rounds_reverse]
  have hrev : rev4 (rev4 (packBlock b)) = packBlock b := rfl
  rw [hrev]
  exact unpackBlock_packBlock b hlen hb

/- ===================== CBC-mode lemmas ===================== -/

theorem xorBytes_length (a b : List Nat) :
    (xorBytes a b).length = min a.length b.length := List.length_zipWith _ _ _

theorem xorBytes_cancel :
    ∀ a b : List Nat, a.length = b.length → xorBytes a (xorBytes a b) = b := by
  intro a
  induction a with
  | nil =>
    intro b hb
    cases b with
    | nil => rfl
    | cons y ys => simp at hb
  | cons x xs ih =>
    intro b hb
    cases b with
    | nil => simp at hb
    | cons y ys =>
      simp only [xorBytes, List.zipWith_cons_cons]
      rw [← Nat.xor_assoc, Nat.xor_self, Nat.zero_xor]
      exact congrArg (List.cons y) (ih ys (by simpa using hb))

theorem xorBytes_bytes_lt :
    ∀ a b : List Nat, (∀ e ∈ a, e < 256) → (∀ e ∈ b, e < 256) →
      ∀ e ∈ xorBytes a b, e < 256 := by
  intro a
  induction a with
  | nil => intro b _ _ e he; simp [xorBytes] at he
  | cons x xs ih =>
    intro b ha hb e he
    cases b with
    | nil => simp [xorBytes] at he
    | cons y ys =>
      simp only [xorBytes, List.zipWith_cons_cons, List.mem_cons] at he
      rcases he with rfl | he
      · have hx : x < 2 ^ 8 := by have := ha x (by simp); omega
        have hy : y < 2 ^ 8 := by have := hb y (by simp); omega
        have := Nat.xor_lt_two_pow hx hy
        omega
      · exact ih ys (fun e he => ha e (by simp [he])) (fun e he => hb e (by simp [he])) e he

/-- Every block the CBC encryption loop emits has 16 bytes, and the loop
emits exactly q blocks. -/
theorem cbcEncGo_blocks (T : Nat → Nat) (ks : List Nat) :
    ∀ (q : Nat) (buf rest : List Nat),
      (∀ bl ∈ (cbcEncGo (sm4EncryptBlock T ks) buf rest q).1, bl.length = 16) ∧
      (cbcEncGo (sm4EncryptBlock T ks) buf rest q).1.length = q := by
  intro q
  induction q with
  | zero => intro buf rest; exact ⟨by simp [cbcEncGo], rfl⟩
  | succ q ih =>
    intro buf rest
    simp only [cbcEncGo]
    obtain ⟨ih1, ih2⟩ := ih (sm4EncryptBlock T ks (xorBytes buf (rest.take 16))) (rest.drop 16)
    constructor
    · intro bl hbl
      rcases List.mem_cons.mp hbl with rfl | hbl
      · exact sm4EncryptBlock_length T ks _
      · exact ih1 bl hbl
    · simpa using ih2

/-- The CBC chaining identity: decrypting the q cipher blocks followed by
the encrypted padded block recovers the first 16q plaintext bytes followed
by the padded block. -/
theorem cbc_chain (T : Nat → Nat) (ks : List Nat) :
    ∀ (q : Nat) (buf rest pb : List Nat),
      buf.length = 16 → (∀ e ∈ buf, e < 256) → (∀ e ∈ rest, e < 256) →
      16 * q ≤ rest.length → pb.length = 16 → (∀ e ∈ pb, e < 256) →
      cbcDecGo (sm4DecryptBlock T ks) buf
        ((cbcEncGo (sm4EncryptBlock T ks) buf rest q).1 ++
          [sm4EncryptBlock T ks
            (xorBytes (cbcEncGo (sm4EncryptBlock T ks) buf rest q).2 pb)])
        = rest.take (16 * q) ++ pb := by
  intro q
  induction q with
  | zero =>
    intro buf rest pb hbl hbb hrb hq hpl hpb
    have hxlen : (xorBytes buf pb).length = 16 := by
      rw [xorBytes_length, hbl, hpl]
      exact Nat.min_self 16
    have hxb := xorBytes_bytes_lt buf pb hbb hpb
    show xorBytes buf (sm4DecryptBlock T ks (sm4EncryptBlock T ks (xorBytes buf pb))) ++
        cbcDecGo (sm4DecryptBlock T ks) _ [] = rest.take 0 ++ pb
    rw [sm4Block_roundtrip T ks _ hxlen hxb, xorBytes_cancel buf pb (by omega)]
    simp [cbcDecGo]
  | succ q ih =>
    intro buf rest pb hbl hbb hrb hq hpl hpb
    have h16 : 16 ≤ rest.length := by omega
    have htake16 : (rest.take 16).length = 16 := by
      rw [List.length_take]
      omega
    have hxlen : (xorBytes buf (rest.take 16)).length = 16 := by
      rw [xorBytes_length, hbl, htake16]
      exact Nat.min_self 16
    have hxb := xorBytes_bytes_lt buf (rest.take 16) hbb
      (fun e he => hrb e (List.mem_of_mem_take he))
    simp only [cbcEncGo, List.cons_append, cbcDecGo, List.append_eq]
    rw [sm4Block_roundtrip T ks _ hxlen hxb,
      xorBytes_cancel buf (rest.take 16) (by omega),
      ih (sm4EncryptBlock T ks (xorBytes buf (rest.take 16))) (rest.drop 16) pb
        (sm4EncryptBlock_length T ks _) (sm4EncryptBlock_bytes_lt T ks _)
        (fun e he => hrb e (List.mem_of_mem_drop he))
        (by rw [List.length_drop]; omega) hpl hpb,
      show 16 * (q + 1) = 16 + 16 * q by ring,
      List.take_add, List.append_assoc]

/-- Chunking the concatenation of 16-byte blocks recovers the blocks. -/
theorem chunks16_flatten :
    ∀ bls : List (List Nat), (∀ b ∈ bls, b.length = 16) →
      chunks16 bls.flatten = bls := by
  intro bls
  induction bls with
  | nil =>
    intro _
    rw [chunks16]
    simp
  | cons b rest ih =>
    intro hb
    have hbl : b.length = 16 := hb b (by simp)
    have hne : b ++ rest.flatten ≠ [] := by
      intro h
      have := (List.append_eq_nil.mp h).1
      simp [this] at hbl
    rw [List.flatten_cons, chunks16, if_neg hne, List.take_left' hbl, List.drop_left' hbl]
    exact congrArg (List.cons b) (ih (fun x hx => hb x (by simp [hx])))

/-- The byte length of a list of 16-byte blocks. -/
theorem flatten_length_16 :
    ∀ bls : List (List Nat), (∀ b ∈ bls, b.length = 16) →
      bls.flatten.length = 16 * bls.length := by
  intro bls
  induction bls with
  | nil => intro _; rfl
  | cons b rest ih =>
    intro hb
    rw [List.flatten_cons, List.length_append, hb b (by simp),
      ih (fun x hx => hb x (by simp [hx])), List.length_cons]
    ring

/-- Evaluation of CBC decryption when the deciphered byte stream is a
message followed by pad copies of the byte pad, with 1 <= pad <= 16. -/
theorem cbcDecryptBytes_of_out (dec : List Nat → List Nat) (iv cipher M : List Nat)
    (pad : Nat) (hiv : iv.length = 16) (hlen16 : cipher.length % 16 = 0)
    (hout : cbcDecGo dec iv (chunks16 cipher) = M ++ List.replicate pad pad)
    (hpad1 : 1 ≤ pad) (hpad16 : pad ≤ 16)
    (hclen : cipher.length = M.length + pad) :
    cbcDecryptBytes dec iv cipher = some M := by
  have hpos : ¬ cipher.length = 0 := by omega
  rw [cbcDecryptBytes, if_neg (by simp [hlen16]), if_neg (by simp [hiv]), if_neg hpos]
  have hget : (cbcDecGo dec iv (chunks16 cipher)).get? (cipher.length - 1) = some pad := by
    rw [hout, List.get?_eq_getElem?]
    have hidx : M.length ≤ cipher.length - 1 := by omega
    rw [List.getElem?_append_right hidx,
      show cipher.length - 1 - M.length = pad - 1 by omega]
    exact List.getElem?_replicate_of_lt (by omega)
  rw [hget]
  show (if cipher.length < pad then none
    else some (List.take (cipher.length - pad) (cbcDecGo dec iv (chunks16 cipher)))) = some M
  rw [if_neg (by omega)]
  rw [hout, show cipher.length - pad = M.length by omega]
  exact congrArg some (List.take_left M _)

/- ===================== Claim C8 ===================== -/

/-- Claim C8: CBC decryption inverts CBC encryption for every IV and byte
sequence, and the ciphertext length is exactly ceil((len+1)/16)*16 bytes.
The missing block-cipher core src/sm4/core.rs is modelled from the spec as
a 32-round Feistel network, quantified over the round function T and the
round keys ks the key schedule derives from the 16-byte key K. -/
theorem C8_cbc_roundtrip_and_length (T : Nat → Nat) (ks iv plain : List Nat)
    (hiv : iv.length = 16) (hivb : ∀ e ∈ iv, e < 256)
    (hplain : ∀ e ∈ plain, e < 256) :
    (cbcEncryptBytes (sm4EncryptBlock T ks) iv plain).bind
        (cbcDecryptBytes (sm4DecryptBlock T ks) iv) = some plain ∧
    (cbcEncryptBytes (sm4EncryptBlock T ks) iv plain).map List.length
        = some ((plain.length + 1 + 15) / 16 * 16) := by
  have hq16 : 16 * (plain.length / 16) ≤ plain.length := by
    have := Nat.div_mul_le_self plain.length 16
    omega
  have hmod : plain.length % 16 < 16 := Nat.mod_lt _ (by omega)
  have hdivmod : 16 * (plain.length / 16) + plain.length % 16 = plain.length :=
    Nat.div_add_mod plain.length 16
  -- The padded final block and its properties.
  have hpb :
      (if (plain.length % 16 != 0) = true
        then plain.drop (16 * (plain.length / 16)) ++
          List.replicate (16 - plain.length % 16) (16 - plain.length % 16)
        else List.replicate 16 0x10).length = 16 := by
    split
    · rw [List.length_append, List.length_drop, List.length_replicate]
      omega
    · rfl
  have hpbb : ∀ e ∈
      (if (plain.length % 16 != 0) = true
        then plain.drop (16 * (plain.length / 16)) ++
          List.replicate (16 - plain.length % 16) (16 - plain.length % 16)
        else List.replicate 16 0x10), e < 256 := by
    split
    · intro e he
      rcases List.mem_append.mp he with he | he
      · exact hplain e (List.mem_of_mem_drop he)
      · have := List.eq_of_mem_replicate he
        omega
    · intro e he
      have := List.eq_of_mem_replicate he
      omega
  -- The block list making up the ciphertext.
  have hblocks := cbcEncGo_blocks T ks (plain.length / 16) iv plain
  have hall : ∀ b ∈
      (cbcEncGo (sm4EncryptBlock T ks) iv plain (plain.length / 16)).1 ++
        [sm4EncryptBlock T ks
          (xorBytes (cbcEncGo (sm4EncryptBlock T ks) iv plain (plain.length / 16)).2
            (if (plain.length % 16 != 0) = true
              then plain.drop (16 * (plain.length / 16)) ++
                List.replicate (16 - plain.length % 16) (16 - plain.length % 16)
              else List.replicate 16 0x10))], b.length = 16 := by
    intro b hb
    rcases List.mem_append.mp hb with hb | hb
    · exact hblocks.1 b hb
    · rw [List.mem_singleton.mp hb]
      exact sm4EncryptBlock_length T ks _
  have hcount :
      ((cbcEncGo (sm4EncryptBlock T ks) iv plain (plain.length / 16)).1 ++
        [sm4EncryptBlock T ks
          (xorBytes (cbcEncGo (sm4EncryptBlock T ks) iv plain (plain.length / 16)).2
            (if (plain.length % 16 != 0) = true
              then plain.drop (16 * (plain.length / 16)) ++
                List.replicate (16 - plain.length % 16) (16 - plain.length % 16)
              else List.replicate 16 0x10))]).length = plain.length / 16 + 1 := by
    rw [List.length_append, hblocks.2, List.length_singleton]
  have henc : cbcEncryptBytes (sm4EncryptBlock T ks) iv plain =
      some ((cbcEncGo (sm4EncryptBlock T ks) iv plain (plain.length / 16)).1 ++
        [sm4EncryptBlock T ks
          (xorBytes (cbcEncGo (sm4EncryptBlock T ks) iv plain (plain.length / 16)).2
            (if (plain.length % 16 != 0) = true
              then plain.drop (16 * (plain.length / 16)) ++
                List.replicate (16 - plain.length % 16) (16 - plain.length % 16)
              else List.replicate 16 0x10))]).flatten := by
    rw [cbcEncryptBytes, if_neg (by simp [hiv])]
  have hcipherlen :
      ((cbcEncGo (sm4EncryptBlock T ks) iv plain (plain.length / 16)).1 ++
        [sm4EncryptBlock T ks
          (xorBytes (cbcEncGo (sm4EncryptBlock T ks) iv plain (plain.length / 16)).2
            (if (plain.length % 16 != 0) = true
              then plain.drop (16 * (plain.length / 16)) ++
                List.replicate (16 - plain.length % 16) (16 - plain.length % 16)
              else List.replicate 16 0x10))]).flatten.length
        = 16 * (plain.length / 16 + 1) := by
    rw [flatten_length_16 _ hall, hcount]
  constructor
  · rw [henc, Option.some_bind]
    apply cbcDecryptBytes_of_out (sm4DecryptBlock T ks) iv _ plain
      (16 - plain.length % 16) hiv
    · rw [hcipherlen]
      omega
    · rw [chunks16_flatten _ hall]
      have hchain := cbc_chain T ks (plain.length / 16) iv plain _
        hiv hivb hplain hq16 hpb hpbb
      rw [hchain]
      by_cases hr : plain.length % 16 = 0
      · rw [if_neg (by simp [hr])]
        have h1 : 16 * (plain.length / 16) = plain.length := by omega
        rw [h1, List.take_length, hr]
      · rw [if_pos (by simp [hr]), ← List.append_assoc, List.take_append_drop]
    · omega
    · omega
    · rw [hcipherlen]
      omega
  · rw [henc, Option.map_some', hcipherlen]
    congr 1
    omega

/-- Witness for the C8 theorem: the identity round function, an all-zero
key schedule, the zero IV and the plaintext [1, 2, 3]. -/
theorem C8_cbc_roundtrip_and_length_witness :
    (cbcEncryptBytes (sm4EncryptBlock (fun x => x) (List.replicate 32 0))
        (List.replicate 16 0) [1, 2, 3]).bind
      (cbcDecryptBytes (sm4DecryptBlock (fun x => x) (List.replicate 32 0))
        (List.replicate 16 0)) = some [1, 2, 3] ∧
    (cbcEncryptBytes (sm4EncryptBlock (fun x => x) (List.replicate 32 0))
        (List.replicate 16 0) [1, 2, 3]).map List.length
      = some ((([1, 2, 3] : List Nat).length + 1 + 15) / 16 * 16) :=
  C8_cbc_roundtrip_and_length (fun x => x) (List.replicate 32 0)
    (List.replicate 16 0) [1, 2, 3] (by simp)
    (fun e he => by have := List.eq_of_mem_replicate he; omega)
    (by intro e he; simp at he; omega)

/- ===================== Claim C2 lemmas ===================== -/

/-- The subgroup order is positive. -/
theorem ecN_pos : 0 < ecN := by decide

/-- Casting an Int mod ecN into ZMod ecN drops the mod. -/
theorem intCast_emod_zmod (a : Int) :
    ((a % (ecN : Int) : Int) : ZMod ecN) = (a : ZMod ecN) := by
  rw [ZMod.intCast_eq_intCast_iff']
  exact Int.emod_emod_of_dvd a dvd_rfl

/-- Casting a Nat mod ecN into ZMod ecN drops the mod. -/
theorem natCast_mod_zmod (a : Nat) :
    ((a % ecN : Nat) : ZMod ecN) = (a : ZMod ecN) := by
  rw [ZMod.natCast_eq_natCast_iff]
  exact Nat.mod_modEq a ecN

/-- The Bezout coefficient of d + 1 is its inverse mod n when they are
coprime. -/
theorem bezout_inverse (d : Nat) (hco : Nat.gcd (d + 1) ecN = 1) :
    ((d : ZMod ecN) + 1) * ((Nat.gcdA (d + 1) ecN : Int) : ZMod ecN) = 1 := by
  have hb := Nat.gcd_eq_gcd_ab (d + 1) ecN
  rw [hco] at hb
  have := congrArg (fun z : Int => (z : ZMod ecN)) hb
  push_cast at this
  rw [ZMod.natCast_self] at this
  rw [eq_comm]
  calc (1 : ZMod ecN) = (d + 1) * ((Nat.gcdA (d + 1) ecN : Int) : ZMod ecN)
      + 0 * ((Nat.gcdB (d + 1) ecN : Int) : ZMod ecN) := this
  _ = ((d : ZMod ecN) + 1) * ((Nat.gcdA (d + 1) ecN : Int) : ZMod ecN) := by ring

/- ===================== Claim C2 ===================== -/

/-- Claim C2: for every key pair (d, d G) and message, every signature the
signing loop emits is accepted by verification.  The builder is abstracted
by its two multiplication laws: scalar_multiply of a base multiple is the
base multiple of the product mod n, and point_add of base multiples is the
base multiple of the sum mod n; the coprimality of d + 1 with n holds for
every d in range because n is prime. -/
theorem C2_sign_verify_roundtrip
    (bmul : Nat → Nat × Nat) (smul : Nat → Nat → Nat → Nat × Nat)
    (padd : Nat → Nat → Nat → Nat → Nat × Nat)
    (d k : Nat) (msg : List Nat)
    (H1 : ∀ a t, smul (bmul a).1 (bmul a).2 t = bmul (a * t % ecN))
    (H2 : ∀ a b, padd (bmul a).1 (bmul a).2 (bmul b).1 (bmul b).2
      = bmul ((a + b) % ecN))
    (_hd : 1 ≤ d ∧ d ≤ ecN - 2) (hk : 1 ≤ k ∧ k ≤ ecN - 1)
    (hco : Nat.gcd (d + 1) ecN = 1) :
    (signStep bmul d msg k).all
      (fun rs => verifySig bmul smul padd (bmul d).1 (bmul d).2 msg rs.1 rs.2)
      = true := by
  cases hsign : signStep bmul d msg k with
  | none => rfl
  | some rs =>
    rw [Option.all_some]
    simp only [signStep] at hsign
    split at hsign
    · exact absurd hsign (by simp)
    · rename_i hrcond
      split at hsign
      · exact absurd hsign (by simp)
      · rename_i hscond
        obtain ⟨r, s⟩ := rs
        injection hsign with hsign
        injection hsign with hrdef hsdef
        subst hrdef
        subst hsdef
        simp only [verifySig]
        haveI : NeZero ecN := ⟨by decide⟩
        set e := bytesToNatBE (sm3hash (digest (bmul d).1 (bmul d).2 ++ msg)) with hE
        set x1 := (bmul k).1 with hX1
        set r := (e + x1) % ecN with hR
        set sInt := ((k : Int) - (d : Int) * (r : Int)) *
          (Nat.gcdA (d + 1) ecN % (ecN : Int)) % (ecN : Int) with hSI
        set s := sInt.toNat with hS
        set A := ((Nat.gcdA (d + 1) ecN : Int) : ZMod ecN) with hA0
        push_neg at hrcond
        have hrlt : r < ecN := Nat.mod_lt _ ecN_pos
        have hs0 : 0 ≤ sInt := Int.emod_nonneg _ (by exact_mod_cast ecN_pos.ne')
        have hslt : sInt < (ecN : Int) := Int.emod_lt_of_pos _ (by exact_mod_cast ecN_pos)
        have hsn : s < ecN := by omega
        have hA := bezout_inverse d hco
        have hsz : (s : ZMod ecN) = ((k : ZMod ecN) - d * r) * A := by
          have h1 : ((s : Nat) : Int) = sInt := Int.toNat_of_nonneg hs0
          calc (s : ZMod ecN) = (((s : Nat) : Int) : ZMod ecN) := by push_cast; rfl
          _ = ((sInt : Int) : ZMod ecN) := by rw [h1]
          _ = ((((k : Int) - (d : Int) * (r : Int)) *
                (Nat.gcdA (d + 1) ecN % (ecN : Int)) : Int) : ZMod ecN) :=
            intCast_emod_zmod _
          _ = ((k : ZMod ecN) - d * r) * A := by
            push_cast
            rw [hA0]
        have htne : ¬ (r + s) % ecN = 0 := by
          intro h0
          have hplus : (r : ZMod ecN) + (s : ZMod ecN) = 0 := by
            have h1 : ((r + s : Nat) : ZMod ecN) = ((0 : Nat) : ZMod ecN) := by
              rw [← natCast_mod_zmod, h0]
            push_cast at h1
            exact h1
          have hsum2 : ((k : ZMod ecN) - d * r) * A + r = 0 := by
            rw [← hsz]
            rw [add_comm]
            exact hplus
          have hk0 : ((k + r : Nat) : ZMod ecN) = 0 := by
            push_cast
            linear_combination ((d : ZMod ecN) + 1) * hsum2 -
              ((k : ZMod ecN) - (d : ZMod ecN) * (r : ZMod ecN)) * hA
          have hdvd := (ZMod.natCast_zmod_eq_zero_iff_dvd _ _).mp hk0
          obtain ⟨c, hc⟩ := hdvd
          have hbound1 : 2 ≤ k + r := by
            rcases hrcond with ⟨hr0, _⟩
            omega
          have hbound2 : k + r < 2 * ecN := by omega
          have hc1 : c = 1 := by
            rcases Nat.eq_zero_or_pos c with rfl | hcpos
            · rw [Nat.mul_zero] at hc
              omega
            · rcases Nat.lt_or_ge c 2 with h2 | h2
              · omega
              · exfalso
                have hge : ecN * 2 ≤ ecN * c := Nat.mul_le_mul_left ecN h2
                omega
          rw [hc1, Nat.mul_one] at hc
          rcases hrcond with ⟨_, hrk⟩
          omega
        have hmodk : (s + d * ((r + s) % ecN) % ecN) % ecN = k := by
          have hzz : ((s + d * ((r + s) % ecN) % ecN : Nat) : ZMod ecN)
              = ((k : Nat) : ZMod ecN) := by
            rw [← natCast_mod_zmod]
            rw [natCast_mod_zmod (s + d * ((r + s) % ecN) % ecN)]
            push_cast [natCast_mod_zmod]
            rw [hsz]
            linear_combination ((k : ZMod ecN) - (d : ZMod ecN) * (r : ZMod ecN)) * hA
          have hmeq := (ZMod.natCast_eq_natCast_iff _ _ _).mp hzz
          have : (s + d * ((r + s) % ecN) % ecN) % ecN = k % ecN := hmeq
          rw [Nat.mod_eq_of_lt (by omega : k < ecN)] at this
          exact this
        rw [if_neg (by omega), if_neg (by omega), if_neg htne, H1, H2, hmodk]
        simp

/-- Witness for the C2 theorem: the toy builder satisfies both
multiplication laws, and with d = 1, k = 1 and the one-byte message [97]
the signing step, whenever it emits a signature, produces one that
verification accepts. -/
theorem C2_sign_verify_roundtrip_witness :
    (signStep toyBmul 1 [97] 1).all
      (fun rs => verifySig toyBmul toySmul toyPadd
        (toyBmul 1).1 (toyBmul 1).2 [97] rs.1 rs.2) = true :=
  C2_sign_verify_roundtrip toyBmul toySmul toyPadd 1 1 [97]
    (fun a t => by
      simp only [toyBmul, toySmul]
      rw [Nat.mod_mul_mod, Nat.mod_mod_of_dvd _ dvd_rfl])
    (fun a b => by
      simp only [toyBmul, toyPadd]
      rw [← Nat.add_mod, Nat.mod_mod_of_dvd _ dvd_rfl])
    ⟨Nat.le_refl 1, by decide⟩ ⟨Nat.le_refl 1, by decide⟩
    (by norm_num [ecN])

end SM
